import Mathlib

/-!
Verification of the file-integrity checker (`fic.py`).

The embedding works over `Str := List Char` (a Python `str` is a sequence of
code points) and `List Nat` for byte strings.  File contents read in text mode
are modelled directly as the on-disk character sequence; the `splitlines`,
`split`, `strip` helpers below follow Python's semantics on the ASCII and
common Unicode whitespace/line-break characters.
-/

set_option maxHeartbeats 4000000

namespace Fic

abbrev Str := List Char

/-- Characters Python `str.strip` / `str.split` treat as whitespace. -/
def pySpace (c : Char) : Bool :=
  c = ' ' || c = '\t' || c = '\n' || c = '\x0b' || c = '\x0c' || c = '\r' ||
  c = '\x1c' || c = '\x1d' || c = '\x1e' || c = '\x1f' || c = '\x85' || c = '\xa0' ||
  c = '\u1680' || c = '\u2000' || c = '\u2001' || c = '\u2002' || c = '\u2003' ||
  c = '\u2004' || c = '\u2005' || c = '\u2006' || c = '\u2007' || c = '\u2008' ||
  c = '\u2009' || c = '\u200a' || c = '\u2028' || c = '\u2029' || c = '\u202f' ||
  c = '\u205f' || c = '\u3000'

/-- Characters Python `str.splitlines` breaks lines at. -/
def isLineBreak (c : Char) : Bool :=
  c = '\n' || c = '\r' || c = '\x0b' || c = '\x0c' ||
  c = '\x1c' || c = '\x1d' || c = '\x1e' || c = '\x85' ||
  c = '\u2028' || c = '\u2029'

theorem lineBreak_pySpace {c : Char} (h : isLineBreak c = true) : pySpace c = true := by
  simp only [isLineBreak, Bool.or_eq_true, decide_eq_true_eq] at h
  simp only [pySpace, Bool.or_eq_true, decide_eq_true_eq]
  tauto

/-- Python `str.splitlines` (universal line breaks, `\r\n` counts once). -/
def splitlines : Str → List Str
  | [] => []
  | [c] => if isLineBreak c then [[]] else [[c]]
  | c :: d :: rest =>
    if c = '\r' && d = '\n' then [] :: splitlines rest
    else if isLineBreak c then [] :: splitlines (d :: rest)
    else
      match splitlines (d :: rest) with
      | [] => [[c]]
      | l :: ls => (c :: l) :: ls

/-- Python `str.strip()` with no argument: trim `pySpace` at both ends. -/
def pyStrip (s : Str) : Str :=
  ((s.dropWhile pySpace).reverse.dropWhile pySpace).reverse

/-- Python `sep.join(parts)`. -/
def pyJoin (sep : Str) : List Str → Str
  | [] => []
  | [l] => l
  | l :: l2 :: ls => l ++ sep ++ pyJoin sep (l2 :: ls)

/-! ## SHA-256 over byte lists

A byte is a `Nat` below 256; 32-bit words are `Nat`s reduced mod `2 ^ 32`.
This is the standard FIPS 180-4 algorithm, mirroring what `hashlib.sha256`
computes for the absorbed byte sequence.
-/

def w32 : Nat := 4294967296

def add32 (a b : Nat) : Nat := (a + b) % w32

def rotr (n x : Nat) : Nat := (x / 2 ^ n + x % 2 ^ n * 2 ^ (32 - n)) % w32

def shr (n x : Nat) : Nat := x / 2 ^ n

def bnot32 (x : Nat) : Nat := Nat.xor x 4294967295

def bigSigma0 (x : Nat) : Nat := Nat.xor (rotr 2 x) (Nat.xor (rotr 13 x) (rotr 22 x))

def bigSigma1 (x : Nat) : Nat := Nat.xor (rotr 6 x) (Nat.xor (rotr 11 x) (rotr 25 x))

def smallSigma0 (x : Nat) : Nat := Nat.xor (rotr 7 x) (Nat.xor (rotr 18 x) (shr 3 x))

def smallSigma1 (x : Nat) : Nat := Nat.xor (rotr 17 x) (Nat.xor (rotr 19 x) (shr 10 x))

def chFn (x y z : Nat) : Nat := Nat.xor (Nat.land x y) (Nat.land (bnot32 x) z)

def majFn (x y z : Nat) : Nat :=
  Nat.xor (Nat.land x y) (Nat.xor (Nat.land x z) (Nat.land y z))

def shaK : List Nat :=
  [1116352408, 1899447441, 3049323471, 3921009573, 961987163, 1508970993,
   2453635748, 2870763221, 3624381080, 310598401, 607225278, 1426881987,
   1925078388, 2162078206, 2614888103, 3248222580, 3835390401, 4022224774,
   264347078, 604807628, 770255983, 1249150122, 1555081692, 1996064986,
   2554220882, 2821834349, 2952996808, 3210313671, 3336571891, 3584528711,
   113926993, 338241895, 666307205, 773529912, 1294757372, 1396182291,
   1695183700, 1986661051, 2177026350, 2456956037, 2730485921, 2820302411,
   3259730800, 3345764771, 3516065817, 3600352804, 4094571909, 275423344,
   430227734, 506948616, 659060556, 883997877, 958139571, 1322822218,
   1537002063, 1747873779, 1955562222, 2024104815, 2227730452, 2361852424,
   2428436474, 2756734187, 3204031479, 3329325298]

structure H8 where
  a : Nat
  b : Nat
  c : Nat
  d : Nat
  e : Nat
  f : Nat
  g : Nat
  h : Nat

def shaInit : H8 :=
  ⟨1779033703, 3144134277, 1013904242, 2773480762, 1359893119, 2600822924, 528734635, 1541459225⟩

/-- Helper of `chunksOf`: `n` is how many more elements fit into the open
chunk, `acc` holds the open chunk reversed. -/
def chunkAccum (k : Nat) : List α → Nat → List α → List (List α)
  | [], _, acc => if acc.isEmpty then [] else [acc.reverse]
  | x :: xs, 0, acc => (x :: acc).reverse :: chunkAccum k xs k []
  | x :: xs, n + 1, acc => chunkAccum k xs n (x :: acc)

/-- Split a list into chunks of size `k + 1` (last chunk may be shorter). -/
def chunksOf (k : Nat) (l : List α) : List (List α) := chunkAccum k l k []

def word32 (l : List Nat) : Nat :=
  l.getD 0 0 * 16777216 + l.getD 1 0 * 65536 + l.getD 2 0 * 256 + l.getD 3 0

/-- One step of the message-schedule extension. -/
def nextW (ws : List Nat) : Nat :=
  add32 (smallSigma1 (ws.getD (ws.length - 2) 0))
    (add32 (ws.getD (ws.length - 7) 0)
      (add32 (smallSigma0 (ws.getD (ws.length - 15) 0)) (ws.getD (ws.length - 16) 0)))

def extendW : List Nat → Nat → List Nat
  | ws, 0 => ws
  | ws, k + 1 => extendW (ws ++ [nextW ws]) k

def shaStep (st : H8) (wk : Nat × Nat) : H8 :=
  let t1 := add32 st.h (add32 (bigSigma1 st.e) (add32 (chFn st.e st.f st.g) (add32 wk.2 wk.1)))
  let t2 := add32 (bigSigma0 st.a) (majFn st.a st.b st.c)
  ⟨add32 t1 t2, st.a, st.b, st.c, add32 st.d t1, st.e, st.f, st.g⟩

def compress (st : H8) (block : List Nat) : H8 :=
  let ws := extendW ((chunksOf 3 block).map word32) 48
  let r := (ws.zip shaK).foldl shaStep st
  ⟨add32 st.a r.a, add32 st.b r.b, add32 st.c r.c, add32 st.d r.d,
   add32 st.e r.e, add32 st.f r.f, add32 st.g r.g, add32 st.h r.h⟩

/-- FIPS 180-4 padding of a byte string. -/
def padMsg (m : List Nat) : List Nat :=
  let L := m.length
  m ++ 128 :: List.replicate ((120 - (L + 1) % 64) % 64) 0 ++
    [56, 48, 40, 32, 24, 16, 8, 0].map (fun s => L * 8 / 2 ^ s % 256)

def hexDigit (n : Nat) : Char :=
  match n with
  | 0 => '0' | 1 => '1' | 2 => '2' | 3 => '3' | 4 => '4' | 5 => '5' | 6 => '6' | 7 => '7'
  | 8 => '8' | 9 => '9' | 10 => 'a' | 11 => 'b' | 12 => 'c' | 13 => 'd' | 14 => 'e' | 15 => 'f'
  | _ => '0'

def wordHex (x : Nat) : Str :=
  [hexDigit (x / 2 ^ 28 % 16), hexDigit (x / 2 ^ 24 % 16), hexDigit (x / 2 ^ 20 % 16),
   hexDigit (x / 2 ^ 16 % 16), hexDigit (x / 2 ^ 12 % 16), hexDigit (x / 2 ^ 8 % 16),
   hexDigit (x / 2 ^ 4 % 16), hexDigit (x % 16)]

/-- SHA-256 lowercase hex digest of a byte string (what `hexdigest()` returns
for an accumulator that absorbed exactly these bytes). -/
def sha256hex (m : List Nat) : Str :=
  let r := (chunksOf 63 (padMsg m)).foldl compress shaInit
  wordHex r.a ++ wordHex r.b ++ wordHex r.c ++ wordHex r.d ++
  wordHex r.e ++ wordHex r.f ++ wordHex r.g ++ wordHex r.h

/-! ## Filesystem model

A filesystem maps a path string to what `stat`/`open` would find there:
nothing, or an entry that may or may not be a regular file, may or may not
be readable, and has byte contents.  `Path.is_file()` is true exactly for an
existing regular entry; opening and reading succeeds exactly for a readable
regular file and raises `OSError` otherwise.
-/

structure FileInfo where
  regular : Bool
  readable : Bool
  content : List Nat
deriving DecidableEq

abbrev FS := Str → Option FileInfo

/-- `Path(p).is_file()`. -/
def is_file (fs : FS) (p : Str) : Bool :=
  match fs p with
  | some fi => fi.regular
  | none => false

/-- `path.open("rb")` followed by reading everything: `some` bytes on
success, `none` when the OS raises an `OSError`. -/
def readBytes (fs : FS) (p : Str) : Option (List Nat) :=
  match fs p with
  | some fi => if fi.regular && fi.readable then some fi.content else none
  | none => none

/-- `sha256_of_file`: stream the file contents in 1 MiB chunks through the
digest accumulator (`h.update` absorbs each chunk in turn; `hexdigest` hashes
exactly the absorbed byte sequence). -/
def sha256_of_file (content : List Nat) : Str :=
  sha256hex ((chunksOf 1048575 content).foldl (fun acc c => acc ++ c) [])

inductive Outcome where
  | digest (d : Str)
  | missing
  | error
deriving DecidableEq

def missingTok : Str := ("MISSING").data

def errorTok : Str := ("ERROR").data

/-- Per-path body of the loop in `hash_files_from_list`. -/
def hashOutcome (fs : FS) (p : Str) : Outcome :=
  if is_file fs p then
    match readBytes fs p with
    | some bytes => Outcome.digest (sha256_of_file bytes)
    | none => Outcome.error
  else Outcome.missing

def renderToken : Outcome → Str
  | Outcome.digest d => d
  | Outcome.missing => missingTok
  | Outcome.error => errorTok

/-- One output line body: `f"{token}  {p}"`. -/
def renderEntry (p : Str) (o : Outcome) : Str := renderToken o ++ ("  ").data ++ p

/-- The text `hash_files_from_list` writes to `out_file`:
`"\n".join(lines) + ("\n" if lines else "")`. -/
def hash_files_from_list (fs : FS) (paths : List Str) : Str :=
  let lines := paths.map (fun p => renderEntry p (hashOutcome fs p))
  pyJoin ['\n'] lines ++ (if lines.isEmpty then [] else ['\n'])

/-! ## Hash store parsing -/

/-- Parsed stores are insertion-ordered key/value lists, mirroring a Python
dict built by repeated assignment. -/
abbrev Store := List (Str × Str)

def dkeys (m : Store) : List Str := m.map Prod.fst

def dlookup : Store → Str → Option Str
  | [], _ => none
  | (k, v) :: m, q => if k = q then some v else dlookup m q

/-- `mapping[k] = v` on an insertion-ordered dict. -/
def dinsert : Store → Str → Str → Store
  | [], k, v => [(k, v)]
  | (k', v') :: m, k, v => if k' = k then (k, v) :: m else (k', v') :: dinsert m k v

def rstripCRLF (s : Str) : Str :=
  (s.reverse.dropWhile (fun c => c = '\r' || c = '\n')).reverse

def lstripSpaceStar (s : Str) : Str := s.dropWhile (fun c => c = ' ' || c = '*')

/-- Python `line.split(maxsplit=1)` with whitespace separators. -/
def split1 (s : Str) : List Str :=
  match s.dropWhile pySpace with
  | [] => []
  | c :: rest =>
    let tok := List.takeWhile (fun x => !pySpace x) (c :: rest)
    let r2 := List.dropWhile pySpace (List.dropWhile (fun x => !pySpace x) (c :: rest))
    if r2.isEmpty then [tok] else [tok, r2]

/-- `parse_hash_file` applied to the file's text. -/
def parse_hash_file (text : Str) : Store :=
  (splitlines text).foldl
    (fun m raw =>
      let line := rstripCRLF raw
      if line.isEmpty then m
      else
        match split1 line with
        | [tok, rest] => dinsert m (lstripSpaceStar rest) tok
        | _ => m)
    []

/-! ## Path list store operations -/

/-- `cmd_add` acting on the list file's content. -/
def cmd_add (content : Str) (path : Str) : Str :=
  let existing := splitlines content
  if existing.any (fun l => pyStrip l == path) then content
  else
    content ++
      (if !existing.isEmpty && !(existing.getLast? == some []) then ['\n'] else []) ++
      path ++ ['\n']

/-- `cmd_remove` acting on the list file's content. -/
def cmd_remove (content : Str) (path : Str) : Str :=
  pyJoin ['\n'] ((splitlines content).filter (fun l => !(pyStrip l == path))) ++ ['\n']

/-! ## Diff engine (the comparison phase of `cmd_check`) -/

inductive Finding where
  | missingNotScanned (p : Str)
  | missing (p : Str)
  | error (p : Str)
  | modified (p : Str)
  | new (p : Str)
deriving DecidableEq

/-- Lexicographic order on code points, Python's string `<`. -/
def strLtB : Str → Str → Bool
  | [], [] => false
  | [], _ :: _ => true
  | _ :: _, [] => false
  | a :: as, b :: bs =>
    if a.toNat < b.toNat then true
    else if b.toNat < a.toNat then false
    else strLtB as bs

def strLeB (a b : Str) : Bool := !strLtB b a

def insertLe (le : α → α → Bool) (a : α) : List α → List α
  | [] => [a]
  | b :: bs => if le a b then a :: b :: bs else b :: insertLe le a bs

def sortLe (le : α → α → Bool) : List α → List α
  | [] => []
  | a :: as => insertLe le a (sortLe le as)

/-- `sorted(base.items())`: with distinct keys the key order decides. -/
def sortPairs (m : Store) : Store := sortLe (fun x y => strLeB x.1 y.1) m

def sortStrs (l : List Str) : List Str := sortLe strLeB l

/-- The `if`/`elif` chain of the first comparison loop. -/
def checkClassify (scan : Store) (path bhash : Str) : Option Finding :=
  match dlookup scan path with
  | none => some (Finding.missingNotScanned path)
  | some shash =>
    if shash = missingTok then some (Finding.missing path)
    else if shash = errorTok then some (Finding.error path)
    else if bhash ≠ shash then some (Finding.modified path)
    else none

/-- Paths that show up in the scan but were not in the baseline:
`sorted(scan.keys() - base.keys())`. -/
def newPaths (base scan : Store) : List Str :=
  sortStrs ((dkeys scan).filter (fun p => (dlookup base p).isNone))

/-- The anomalies logged by `cmd_check`, in emission order. -/
def diffFindings (base scan : Store) : List Finding :=
  (sortPairs base).filterMap (fun pb => checkClassify scan pb.1 pb.2) ++
    (newPaths base scan).map Finding.new

/-- The `changes` counter: incremented once per logged anomaly. -/
def checkChanges (base scan : Store) : Nat := (diffFindings base scan).length

/-- `changes == 0` is reported as "OK: No changes detected.". -/
def checkOk (base scan : Store) : Bool := checkChanges base scan == 0

/-! ## Store-file writes as an effect trace

`cmd_init` and `cmd_check` mutate the db directory through `mkdir`,
plain writes (`write_text` or writing an opened file) and `Path.replace`
(one atomic rename).  The trace records these operations in program order.
-/

inductive FsOp where
  | mkdirs (d : Str)
  | writeFile (p : Str) (content : Str)
  | rename (src dst : Str)
deriving DecidableEq

def dbDir : Str := ("db").data

def BASELINE : Str := ("db/baseline.sha256").data

def LAST_SCAN : Str := ("db/last_scan.sha256").data

def baselineTmp : Str := ("db/.baseline_tmp").data

def scanTmp : Str := ("db/.scan_tmp").data

/-- Mutations performed by `cmd_init`: `hash_files_from_list` makes the db
directory and writes the tmp file, then `cmd_init` remakes the directory,
renames tmp onto the baseline, and writes the last-scan file directly with
the baseline's text. -/
def cmd_init_trace (fs : FS) (paths : List Str) : List FsOp :=
  let content := hash_files_from_list fs paths
  [FsOp.mkdirs dbDir, FsOp.writeFile baselineTmp content, FsOp.mkdirs dbDir,
   FsOp.rename baselineTmp BASELINE, FsOp.writeFile LAST_SCAN content]

/-- Mutations performed by `cmd_check` before the comparison phase. -/
def cmd_check_trace (fs : FS) (paths : List Str) : List FsOp :=
  let content := hash_files_from_list fs paths
  [FsOp.mkdirs dbDir, FsOp.writeFile scanTmp content, FsOp.mkdirs dbDir,
   FsOp.rename scanTmp LAST_SCAN]

/-- Does the trace ever write `p` in place (not via rename)? -/
def directWrites (t : List FsOp) (p : Str) : Bool :=
  t.any (fun op =>
    match op with
    | FsOp.writeFile q _ => q == p
    | _ => false)

/-- Target installed by writing a side file and renaming it, in that order. -/
def atomicReplaceVia (t : List FsOp) (tmp target : Str) : Prop :=
  ∃ (i j : Nat) (c : Str), i < j ∧ t.getD i (FsOp.mkdirs []) = FsOp.writeFile tmp c ∧
    t.getD j (FsOp.mkdirs []) = FsOp.rename tmp target ∧ j < t.length

/-! ## Spec-side definitions

The following definitions transcribe the specification's words, to be
compared against the code-derived definitions above.
-/

def breakFree (s : Str) : Bool := s.all (fun c => !isLineBreak c)

def noWS (s : Str) : Bool := s.all (fun c => !pySpace c)

def isLowerHex (c : Char) : Bool := (("0123456789abcdef").data).contains c

/-- The spec's digest format: exactly 64 lowercase hex characters. -/
def isDigestB (t : Str) : Bool := t.length == 64 && t.all isLowerHex

/-- A store token: a digest or one of the two literal sentinel words. -/
def tokenShapeB (t : Str) : Bool := t == missingTok || t == errorTok || isDigestB t

/-- The write side of the codec on an arbitrary (path, token) sequence,
abstracted from `hash_files_from_list`'s line building and join. -/
def writeStore (S : Store) : Str :=
  pyJoin ['\n'] (S.map (fun e => e.2 ++ ("  ").data ++ e.1)) ++
    (if S.isEmpty then [] else ['\n'])

def scanEntries (fs : FS) (paths : List Str) : List (Str × Outcome) :=
  paths.map (fun p => (p, hashOutcome fs p))

/-- Modelled from the spec: one line per entry, of the form
token, two spaces, path, entries in sequence order, each line
newline-terminated (so a trailing newline is present iff nonempty). -/
def specWrite (S : List (Str × Outcome)) : Str :=
  (S.map (fun e => renderToken e.2 ++ ("  ").data ++ e.1 ++ ['\n'])).flatten

/-- Modelled from the spec: the claim's baseline-phase classification, where
`Modified` requires both tokens to be digests that differ. -/
def specClassifyC1 (path bhash : Str) (s? : Option Str) : Option Finding :=
  match s? with
  | none => some (Finding.missingNotScanned path)
  | some s =>
    if s = missingTok then some (Finding.missing path)
    else if s = errorTok then some (Finding.error path)
    else if isDigestB bhash && isDigestB s && bhash != s then some (Finding.modified path)
    else none

/-- The claim's diff: classified baseline paths in ascending order, then new
paths in ascending order. -/
def specDiffC1 (base scan : Store) : List Finding :=
  (sortStrs (dkeys base)).filterMap
      (fun p =>
        match dlookup base p with
        | some b => specClassifyC1 p b (dlookup scan p)
        | none => none) ++
    (newPaths base scan).map Finding.new

/-- The amended classification: `Modified` whenever the scan token is
neither sentinel and differs from the baseline token. -/
def specClassifyAmended (path bhash : Str) (s? : Option Str) : Option Finding :=
  match s? with
  | none => some (Finding.missingNotScanned path)
  | some s =>
    if s = missingTok then some (Finding.missing path)
    else if s = errorTok then some (Finding.error path)
    else if bhash != s then some (Finding.modified path)
    else none

def specDiffAmended (base scan : Store) : List Finding :=
  (sortStrs (dkeys base)).filterMap
      (fun p =>
        match dlookup base p with
        | some b => specClassifyAmended p b (dlookup scan p)
        | none => none) ++
    (newPaths base scan).map Finding.new

/-- Well-formed paths for the codec round trip. -/
def goodPath (p : Str) : Bool := !p.isEmpty && noWS p && !(p.head? == some '*')

def goodToken (t : Str) : Bool := !t.isEmpty && noWS t

/-- Number of consecutive newline characters the text ends with. -/
def trailingNLs (s : Str) : Nat := (s.reverse.takeWhile (fun c => c = '\n')).length

/-- Lines whose trimmed content equals `path`. -/
def linesStripEq (s path : Str) : Nat :=
  ((splitlines s).filter (fun l => pyStrip l == path)).length

def endsWithBreakNotCR (s : Str) : Bool :=
  match s.getLast? with
  | some c => isLineBreak c && !(c == '\r')
  | none => false

/-- The blank line `cmd_add` inserts before the appended entry: present
exactly when the old content ends with a line break other than a carriage
return after a nonempty final line. -/
def blankPad (content : Str) : List Str :=
  if endsWithBreakNotCR content && !((splitlines content).getLast? == some []) then [[]]
  else []

/-- The lines `cmd_remove` retains. -/
def keptLines (content path : Str) : List Str :=
  (splitlines content).filter (fun l => !(pyStrip l == path))

/-- The separator `cmd_add` writes before the new entry. -/
def cmdAddPad (content : Str) : Str :=
  if !(splitlines content).isEmpty && !((splitlines content).getLast? == some []) then ['\n']
  else []

def optOr (a b : Option Str) : Option Str :=
  match a with
  | some v => some v
  | none => b

/-! ## Concrete fixtures for counterexamples and witnesses -/

def helloBytes : List Nat := ("hello").data.map (fun c => c.toNat)

/-- The digest the spec prints for the bytes `hello` (63 characters). -/
def specHelloDigest : Str :=
  ("2cf24dba5fb0a30e26e83b2ac5b9e29e1b161e5c1fa7425e73043362938b982").data

/-- The actual SHA-256 of the bytes `hello`. -/
def helloDigest : Str :=
  ("2cf24dba5fb0a30e26e83b2ac5b9e29e1b161e5c1fa7425e73043362938b9824").data

/-- A filesystem with one readable regular file `A.txt` containing `hello`. -/
def helloFS : FS :=
  fun p => if p = ("A.txt").data then some ⟨true, true, helloBytes⟩ else none

/-- A filesystem whose only entry is a present but unreadable regular file. -/
def crippledFS : FS :=
  fun p => if p = ("f").data then some ⟨true, false, []⟩ else none

/-- An empty filesystem. -/
def emptyFS : FS := fun _ => none

def c1Base : Store := [(("p").data, missingTok)]

def c1Scan : Store := [(("p").data, List.replicate 64 'a')]

def c10Base : Store := [(("e").data, errorTok), (("m").data, missingTok)]

def c10Scan : Store := [(("m").data, missingTok), (("e").data, errorTok)]

def okTok : Str := List.replicate 64 'b'

def c10Base2 : Store := [(("q").data, okTok)]

def c10Scan2 : Store := [(("q").data, okTok)]

/-! ## Basic lemmas about chunking -/

theorem flatten_chunkAccum {α : Type} (k : Nat) :
    ∀ (l : List α) (n : Nat) (acc : List α),
      (chunkAccum k l n acc).flatten = acc.reverse ++ l := by
  intro l
  induction l with
  | nil =>
    intro n acc
    cases acc <;> simp [chunkAccum]
  | cons x xs ih =>
    intro n acc
    cases n with
    | zero =>
      simp [chunkAccum, ih k [], List.append_assoc]
    | succ n =>
      simp [chunkAccum, ih n (x :: acc), List.append_assoc]

theorem flatten_chunksOf {α : Type} (k : Nat) (l : List α) : (chunksOf k l).flatten = l := by
  simp [chunksOf, flatten_chunkAccum]

theorem foldl_append_flatten {α : Type} (ls : List (List α)) :
    ∀ acc : List α, ls.foldl (fun a c => a ++ c) acc = acc ++ ls.flatten := by
  induction ls with
  | nil => simp
  | cons l ls ih => intro acc; simp [ih, List.append_assoc]

/-- The accumulator absorbs the chunks in order, so it ends up holding the
whole byte string: streaming equals one-pass hashing. -/
theorem sha256_of_file_eq (content : List Nat) : sha256_of_file content = sha256hex content := by
  unfold sha256_of_file
  rw [foldl_append_flatten, flatten_chunksOf]
  rfl

/-- Claim C5: streaming a byte string through the SHA-256 accumulator in
fixed-size 1 MiB chunks yields a digest identical to hashing the whole byte
string in one pass, with no transform applied to the bytes. -/
theorem C5_chunked_hash_eq_whole (content : List Nat) :
    sha256_of_file content = sha256hex content :=
  sha256_of_file_eq content

/-- Claim C9, counterexample: the digest of the bytes `hello` is not the
63-character string printed in the spec. -/
theorem C9_cex :
    sha256_of_file helloBytes ≠ specHelloDigest ∧ specHelloDigest.length = 63 := by
  constructor
  · decide
  · decide

/-- Claim C9, amended: hashing a file whose contents are exactly the bytes
`hello` produces the digest `2cf2…9824`, so that is what the baseline
records for such a file. -/
theorem C9_hello_digest (fs : FS) (p : Str) (fi : FileInfo) (hfs : fs p = some fi)
    (hreg : fi.regular = true) (hread : fi.readable = true)
    (hcont : fi.content = helloBytes) :
    hashOutcome fs p = Outcome.digest helloDigest := by
  unfold hashOutcome is_file readBytes
  rw [hfs]
  simp only [hreg, hread, hcont, Bool.and_self, if_true]
  rw [sha256_of_file_eq]
  have hd : sha256hex helloBytes = helloDigest := by decide
  rw [hd]

/-- Claim C9 witness: the concrete filesystem holding `A.txt` with bytes
`hello`. -/
theorem C9_hello_digest_witness :
    hashOutcome helloFS (("A.txt").data) = Outcome.digest helloDigest :=
  C9_hello_digest helloFS (("A.txt").data) ⟨true, true, helloBytes⟩ rfl rfl rfl rfl

/-- Claim C3, counterexample: `cmd_init` writes the LastScan store file
directly (a plain `write_text`), not via a temporary file and rename. -/
theorem C3_cex :
    directWrites (cmd_init_trace emptyFS [("a").data]) LAST_SCAN = true ∧
      FsOp.writeFile LAST_SCAN (("MISSING  a\n").data) ∈ cmd_init_trace emptyFS [("a").data] := by
  constructor
  · decide
  · decide

/-! ## Line-splitting lemmas -/

theorem twoStepInduction {P : Str → Prop} (nil : P []) (single : ∀ c, P [c])
    (cons2 : ∀ c d rest, P (d :: rest) → P rest → P (c :: d :: rest)) : ∀ s, P s := by
  have H : ∀ (n : Nat) (s : Str), s.length ≤ n → P s := by
    intro n
    induction n with
    | zero =>
      intro s hs
      rcases s with _ | ⟨c, rest⟩
      · exact nil
      · simp at hs
    | succ n ih =>
      intro s hs
      rcases s with _ | ⟨c, _ | ⟨d, rest⟩⟩
      · exact nil
      · exact single c
      · refine cons2 c d rest (ih _ ?_) (ih _ ?_) <;>
          simp only [List.length_cons] at hs ⊢ <;> omega
  intro s
  exact H s.length s le_rfl

theorem splitlines_single (c : Char) :
    splitlines [c] = if isLineBreak c then [[]] else [[c]] := rfl

theorem splitlines_cons2 (c d : Char) (rest : Str) :
    splitlines (c :: d :: rest) =
      if c = '\r' && d = '\n' then [] :: splitlines rest
      else if isLineBreak c then [] :: splitlines (d :: rest)
      else
        match splitlines (d :: rest) with
        | [] => [[c]]
        | l :: ls => (c :: l) :: ls := rfl

theorem splitlines_ne_nil : ∀ s : Str, s ≠ [] → splitlines s ≠ [] := by
  intro s
  induction s using twoStepInduction with
  | nil => intro h; exact absurd rfl h
  | single c =>
    intro _
    rw [splitlines_single]
    split <;> simp
  | cons2 c d rest ih1 ih2 =>
    intro _
    rw [splitlines_cons2]
    split
    · simp
    · split
      · simp
      · cases hsp : splitlines (d :: rest) <;> simp

theorem splitlines_head_break {c : Char} {t : Str} (hc : isLineBreak c = true)
    (hrt : c = '\r' → t.head? ≠ some '\n') :
    splitlines (c :: t) = [] :: splitlines t := by
  cases t with
  | nil =>
    rw [splitlines_single]
    simp only [hc, if_true]
    rfl
  | cons u us =>
    rw [splitlines_cons2]
    by_cases h1 : c = '\r'
    · have hu : u ≠ '\n' := by
        intro hu
        exact hrt h1 (by simp [hu])
      subst h1
      simp [hu, hc]
    · simp [h1, hc]

theorem splitlines_concat_break {c : Char} (hc : isLineBreak c = true) :
    ∀ l : Str, breakFree l = true → splitlines (l ++ [c]) = [l] := by
  intro l
  induction l with
  | nil => intro _; simp [splitlines_single, hc]
  | cons a l' ih =>
    intro hbf
    have ha : isLineBreak a = false := by
      have := (List.all_eq_true.mp hbf) a (by simp)
      simpa using this
    have hbf' : breakFree l' = true := by
      apply List.all_eq_true.mpr
      intro x hx
      exact (List.all_eq_true.mp hbf) x (by simp [hx])
    have ha' : a ≠ '\r' := by
      intro h
      rw [h] at ha
      simp [isLineBreak] at ha
    show splitlines (a :: (l' ++ [c])) = [a :: l']
    rcases hl : l' ++ [c] with _ | ⟨d, rest⟩
    · simp at hl
    · rw [splitlines_cons2, ← hl, ih hbf']
      simp [ha, ha']

theorem splitlines_nil : splitlines [] = [] := rfl

theorem isLineBreak_cr : isLineBreak '\r' = true := by decide

theorem isLineBreak_nl : isLineBreak '\n' = true := by decide

theorem splitlines_append_break {c : Char} {t : Str} (hc : isLineBreak c = true)
    (hrt : c = '\r' → t.head? ≠ some '\n') :
    ∀ s : Str, splitlines (s ++ c :: t) = splitlines (s ++ [c]) ++ splitlines t := by
  intro s
  induction s using twoStepInduction with
  | nil =>
    simp only [List.nil_append]
    rw [splitlines_head_break hc hrt, splitlines_single]
    simp [hc, splitlines_nil]
  | single a =>
    show splitlines (a :: c :: t) = splitlines (a :: [c]) ++ splitlines t
    rw [splitlines_cons2, splitlines_cons2]
    by_cases hcond : (a = '\r' && c = '\n') = true
    · simp [hcond, splitlines_nil]
    · by_cases hab : isLineBreak a = true
      · simp [hcond, hab, splitlines_head_break hc hrt, splitlines_single, hc]
      · simp [hcond, hab, splitlines_head_break hc hrt, splitlines_single, hc]
  | cons2 a b s3 ih1 ih2 =>
    show splitlines (a :: b :: (s3 ++ c :: t)) = splitlines (a :: b :: (s3 ++ [c])) ++ splitlines t
    have ih1' : splitlines (b :: (s3 ++ c :: t)) = splitlines (b :: (s3 ++ [c])) ++ splitlines t := by
      simpa using ih1
    rw [splitlines_cons2, splitlines_cons2]
    by_cases hcond : (a = '\r' && b = '\n') = true
    · simp [hcond, ih2]
    · by_cases hab : isLineBreak a = true
      · simp [hcond, hab, ih1']
      · have hne := splitlines_ne_nil (b :: (s3 ++ [c])) (by simp)
        rcases hsp : splitlines (b :: (s3 ++ [c])) with _ | ⟨l, ls⟩
        · exact absurd hsp hne
        · rw [hsp] at ih1'
          simp [hcond, hab, ih1', hsp]

theorem splitlines_append_crlf (t : Str) :
    ∀ s : Str, splitlines (s ++ '\r' :: '\n' :: t) = splitlines (s ++ ['\r']) ++ splitlines t := by
  intro s
  induction s using twoStepInduction with
  | nil =>
    simp only [List.nil_append]
    rw [splitlines_cons2, splitlines_single]
    simp [splitlines_nil, isLineBreak_cr]
  | single a =>
    show splitlines (a :: '\r' :: '\n' :: t) = splitlines (a :: ['\r']) ++ splitlines t
    rw [splitlines_cons2, splitlines_cons2, splitlines_cons2, splitlines_single]
    by_cases hab : isLineBreak a = true
    · simp [hab, splitlines_nil, isLineBreak_cr]
    · have ha : a ≠ '\r' := by
        intro h
        rw [h] at hab
        simp [isLineBreak] at hab
      simp [ha, hab, splitlines_nil, isLineBreak_cr]
  | cons2 a b s3 ih1 ih2 =>
    show splitlines (a :: b :: (s3 ++ '\r' :: '\n' :: t)) =
      splitlines (a :: b :: (s3 ++ ['\r'])) ++ splitlines t
    have ih1' : splitlines (b :: (s3 ++ '\r' :: '\n' :: t)) =
        splitlines (b :: (s3 ++ ['\r'])) ++ splitlines t := by
      simpa using ih1
    rw [splitlines_cons2, splitlines_cons2]
    by_cases hcond : (a = '\r' && b = '\n') = true
    · simp [hcond, ih2]
    · by_cases hab : isLineBreak a = true
      · simp [hcond, hab, ih1']
      · have hne := splitlines_ne_nil (b :: (s3 ++ ['\r'])) (by simp)
        rcases hsp : splitlines (b :: (s3 ++ ['\r'])) with _ | ⟨l, ls⟩
        · exact absurd hsp hne
        · rw [hsp] at ih1'
          simp [hcond, hab, ih1', hsp]

theorem splitlines_pair_nonbreak {c : Char} (hc : isLineBreak c = false) :
    splitlines [c, '\n'] = [[c]] := by
  have hcr : c ≠ '\r' := by
    intro h
    rw [h] at hc
    simp [isLineBreak] at hc
  rw [splitlines_cons2, splitlines_single]
  simp [hcr, hc, isLineBreak_nl]

theorem splitlines_term_nonbreak {c : Char} (hc : isLineBreak c = false) :
    ∀ s0 : Str, splitlines (s0 ++ [c, '\n']) = splitlines (s0 ++ [c]) := by
  have hcr : c ≠ '\r' := by
    intro h
    rw [h] at hc
    simp [isLineBreak] at hc
  have hcn : c ≠ '\n' := by
    intro h
    rw [h] at hc
    simp [isLineBreak] at hc
  intro s0
  induction s0 using twoStepInduction with
  | nil =>
    rw [List.nil_append, List.nil_append, splitlines_pair_nonbreak hc, splitlines_single]
    simp [hc]
  | single a =>
    show splitlines (a :: c :: ['\n']) = splitlines (a :: [c])
    rw [splitlines_cons2 a c ['\n'], splitlines_cons2 a c [],
      splitlines_pair_nonbreak hc]
    simp [hcn, hc, splitlines_single]
  | cons2 a b s3 ih1 ih2 =>
    show splitlines (a :: b :: (s3 ++ [c, '\n'])) = splitlines (a :: b :: (s3 ++ [c]))
    have ih1' : splitlines (b :: (s3 ++ [c, '\n'])) = splitlines (b :: (s3 ++ [c])) := by
      simpa using ih1
    rw [splitlines_cons2, splitlines_cons2]
    by_cases hcond : (a = '\r' && b = '\n') = true
    · simp [hcond, ih2]
    · by_cases hab : isLineBreak a = true
      · simp [hcond, hab, ih1']
      · simp [hcond, hab, ih1']

theorem splitlines_getLast_nonbreak {c : Char} (hc : isLineBreak c = false) :
    ∀ s0 : Str, (splitlines (s0 ++ [c])).getLast? ≠ some [] := by
  have hcn : c ≠ '\n' := by
    intro h
    rw [h] at hc
    simp [isLineBreak] at hc
  intro s0
  induction s0 using twoStepInduction with
  | nil =>
    rw [List.nil_append, splitlines_single]
    simp [hc]
  | single a =>
    show (splitlines (a :: [c])).getLast? ≠ some []
    rw [splitlines_cons2, splitlines_single]
    by_cases hab : isLineBreak a = true
    · simp [hcn, hab, hc]
    · simp [hcn, hab, hc]
  | cons2 a b s3 ih1 ih2 =>
    show (splitlines (a :: b :: (s3 ++ [c]))).getLast? ≠ some []
    have ih1' : (splitlines (b :: (s3 ++ [c]))).getLast? ≠ some [] := by
      simpa using ih1
    rw [splitlines_cons2]
    by_cases hcond : (a = '\r' && b = '\n') = true
    · have hne := splitlines_ne_nil (s3 ++ [c]) (by simp)
      rcases hsp : splitlines (s3 ++ [c]) with _ | ⟨y, ys⟩
      · exact absurd hsp hne
      · rw [hsp] at ih2
        simp only [hcond, if_true, List.getLast?_cons_cons]
        exact ih2
    · by_cases hab : isLineBreak a = true
      · have hne := splitlines_ne_nil (b :: (s3 ++ [c])) (by simp)
        rcases hsp : splitlines (b :: (s3 ++ [c])) with _ | ⟨y, ys⟩
        · exact absurd hsp hne
        · rw [hsp] at ih1'
          simp only [hcond, Bool.false_eq_true, if_false, hab, if_true, List.getLast?_cons_cons]
          exact ih1'
      · rcases hsp : splitlines (b :: (s3 ++ [c])) with _ | ⟨l, ls⟩
        · exact absurd hsp (splitlines_ne_nil _ (by simp))
        · rw [hsp] at ih1'
          simp only [hcond, Bool.false_eq_true, if_false, hab, hsp]
          rcases ls with _ | ⟨z, zs⟩
          · simp
          · simp only [List.getLast?_cons_cons]
            simpa using ih1'

theorem splitlines_mem_breakFree : ∀ s : Str, ∀ l ∈ splitlines s, breakFree l = true := by
  intro s
  induction s using twoStepInduction with
  | nil => intro l hl; simp [splitlines_nil] at hl
  | single c =>
    intro l hl
    rw [splitlines_single] at hl
    by_cases hb : isLineBreak c = true
    · simp [hb] at hl
      simp [hl, breakFree]
    · simp [hb] at hl
      simp [hl, breakFree, hb]
  | cons2 c d rest ih1 ih2 =>
    intro l hl
    rw [splitlines_cons2] at hl
    by_cases hcond : (c = '\r' && d = '\n') = true
    · rw [if_pos hcond] at hl
      rcases List.mem_cons.mp hl with h | h
      · simp [h, breakFree]
      · exact ih2 l h
    · rw [if_neg (by simp [hcond])] at hl
      by_cases hab : isLineBreak c = true
      · rw [if_pos hab] at hl
        rcases List.mem_cons.mp hl with h | h
        · simp [h, breakFree]
        · exact ih1 l h
      · rw [if_neg hab] at hl
        rcases hsp : splitlines (d :: rest) with _ | ⟨l0, ls⟩
        · rw [hsp] at hl
          simp at hl
          simp [hl, breakFree, hab]
        · rw [hsp] at hl
          rcases List.mem_cons.mp hl with h | h
          · have h0 : breakFree l0 = true := ih1 l0 (by rw [hsp]; simp)
            subst h
            simp [breakFree, hab] at h0 ⊢
            exact h0
          · exact ih1 l (by rw [hsp]; simp [h])

theorem splitlines_line_cons {l : Str} (hl : breakFree l = true) (t : Str) :
    splitlines (l ++ '\n' :: t) = l :: splitlines t := by
  rw [splitlines_append_break (by decide) (fun h => absurd h (by decide)) l,
    splitlines_concat_break (by decide) l hl]
  simp

theorem pyJoin_nl (ls : List Str) (h : ls ≠ []) :
    pyJoin ['\n'] ls ++ ['\n'] = (ls.map (fun l => l ++ ['\n'])).flatten := by
  induction ls with
  | nil => exact absurd rfl h
  | cons l ls ih =>
    cases ls with
    | nil => simp [pyJoin]
    | cons l2 ls2 =>
      have prev := ih (by simp)
      show (l ++ ['\n'] ++ pyJoin ['\n'] (l2 :: ls2)) ++ ['\n'] = _
      calc (l ++ ['\n'] ++ pyJoin ['\n'] (l2 :: ls2)) ++ ['\n']
          = (l ++ ['\n']) ++ (pyJoin ['\n'] (l2 :: ls2) ++ ['\n']) := by
            simp [List.append_assoc]
        _ = (l ++ ['\n']) ++ (List.map (fun x => x ++ ['\n']) (l2 :: ls2)).flatten := by
            rw [prev]
        _ = _ := by simp

theorem splitlines_join (ls : List Str) (h : ∀ l ∈ ls, breakFree l = true) :
    splitlines ((ls.map (fun l => l ++ ['\n'])).flatten) = ls := by
  induction ls with
  | nil => simp [splitlines_nil]
  | cons l ls ih =>
    simp only [List.map_cons, List.flatten_cons]
    rw [List.append_assoc, List.singleton_append,
      splitlines_line_cons (h l (by simp)) _,
      ih (fun x hx => h x (by simp [hx]))]

theorem trailingNLs_append_one (t p0 : Str) (c : Char) (hc : c ≠ '\n') :
    trailingNLs (t ++ (p0 ++ [c]) ++ ['\n']) = 1 := by
  unfold trailingNLs
  simp [List.reverse_append, List.takeWhile_cons, hc]

theorem exists_concat_of_getLast? {α : Type} :
    ∀ (l : List α) (a : α), l.getLast? = some a → ∃ l', l = l' ++ [a] := by
  intro l
  induction l with
  | nil => intro a h; simp at h
  | cons x xs ih =>
    intro a h
    cases xs with
    | nil =>
      simp at h
      exact ⟨[], by simp [h]⟩
    | cons y ys =>
      rw [List.getLast?_cons_cons] at h
      obtain ⟨l', hl'⟩ := ih a h
      exact ⟨x :: l', by simp [hl']⟩

theorem flatten_nl_getLast :
    ∀ ls : List Str, ls ≠ [] → ((ls.map (fun l => l ++ ['\n'])).flatten).getLast? = some '\n' := by
  intro ls
  induction ls with
  | nil => intro h; exact absurd rfl h
  | cons k ks ih =>
    intro _
    cases ks with
    | nil => simp
    | cons k2 ks2 =>
      have prev := ih (by simp)
      simp only [List.map_cons, List.flatten_cons] at prev ⊢
      rw [List.getLast?_append_of_ne_nil]
      · exact prev
      · intro hc
        simp at hc

/-- Claim C8, counterexample: removing `b` from a list file whose remaining
content ends with a preserved blank line leaves two trailing newlines, not
exactly one. -/
theorem C8_cex :
    cmd_remove ("a\n\nb\n").data ("b").data = ("a\n\n").data ∧
      trailingNLs (cmd_remove ("a\n\nb\n").data ("b").data) = 2 := by
  constructor
  · decide
  · decide

/-- Claim C8, amended: `cmd_remove` retains exactly the lines whose trimmed
content differs from the path (preserving comments and blank lines), and the
result always ends with a trailing newline; the trailing newline is unique
whenever the last retained line is nonempty (or no line at all is retained),
but a retained trailing blank line leaves more than one. -/
theorem C8_remove_spec (content path : Str) :
    splitlines (cmd_remove content path) =
        (if (keptLines content path).isEmpty then [[]] else keptLines content path) ∧
      (cmd_remove content path).getLast? = some '\n' ∧
      (∀ k, (keptLines content path).getLast? = some k → k ≠ [] →
        trailingNLs (cmd_remove content path) = 1) ∧
      ((keptLines content path).isEmpty = true → cmd_remove content path = ['\n']) := by
  have hbfall : ∀ l ∈ keptLines content path, breakFree l = true := by
    intro l hl
    exact splitlines_mem_breakFree content l (List.mem_of_mem_filter hl)
  have hcr : cmd_remove content path = pyJoin ['\n'] (keptLines content path) ++ ['\n'] := rfl
  rcases hk : keptLines content path with _ | ⟨k0, ks⟩
  · rw [hcr, hk]
    refine ⟨by decide, by decide, ?_, fun _ => rfl⟩
    intro k hk2 _
    simp at hk2
  · have hjoin : cmd_remove content path =
        ((k0 :: ks).map (fun l => l ++ ['\n'])).flatten := by
      rw [hcr, hk]
      exact pyJoin_nl _ (by simp)
    have hbfall' : ∀ l ∈ k0 :: ks, breakFree l = true := by
      intro l hl
      exact hbfall l (by rw [hk]; exact hl)
    refine ⟨?_, ?_, ?_, ?_⟩
    · rw [hjoin, splitlines_join _ hbfall']
      simp
    · rw [hjoin]
      exact flatten_nl_getLast _ (by simp)
    · intro k hklast hkne
      obtain ⟨ks', hks'⟩ := exists_concat_of_getLast? (k0 :: ks) k hklast
      obtain ⟨p0, c, hkc⟩ : ∃ p0 c, k = p0 ++ [c] := by
        rcases List.eq_nil_or_concat k with h | ⟨p0, c, h⟩
        · exact absurd h hkne
        · exact ⟨p0, c, by simpa [List.concat_eq_append] using h⟩
      have hkbf : breakFree k = true := by
        apply hbfall'
        rw [hks']
        simp
      have hcnb : isLineBreak c = false := by
        have := (List.all_eq_true.mp hkbf) c (by simp [hkc])
        simpa using this
      have hcn : c ≠ '\n' := by
        intro h
        rw [h] at hcnb
        simp [isLineBreak_nl] at hcnb
      rw [hjoin, hks', hkc]
      simpa [List.map_append, List.flatten_append, List.append_assoc] using
        trailingNLs_append_one ((ks'.map (fun l => l ++ ['\n'])).flatten) p0 c hcn
    · intro h
      simp at h

theorem isEmpty_splitlines_concat (s0 : Str) (c : Char) :
    (splitlines (s0 ++ [c])).isEmpty = false := by
  rcases hsp : splitlines (s0 ++ [c]) with _ | ⟨y, ys⟩
  · exact absurd hsp (splitlines_ne_nil _ (by simp))
  · rfl

theorem cmd_add_eq {content path : Str}
    (hany : (splitlines content).any (fun l => pyStrip l == path) = false) :
    cmd_add content path = content ++ cmdAddPad content ++ (path ++ ['\n']) := by
  simp [cmd_add, cmdAddPad, hany, List.append_assoc]

theorem splitlines_add_pad (content path : Str) (hne : path ≠ [])
    (hbf : breakFree path = true) :
    splitlines (content ++ cmdAddPad content ++ (path ++ ['\n'])) =
      splitlines content ++ blankPad content ++ [path] := by
  have hterm : splitlines (path ++ ['\n']) = [path] := by
    have := splitlines_line_cons hbf []
    simpa [splitlines_nil] using this
  obtain ⟨h0, path', hh0⟩ : ∃ h0 path', path = h0 :: path' := by
    cases path with
    | nil => exact absurd rfl hne
    | cons x xs => exact ⟨x, xs, rfl⟩
  have hh0nb : isLineBreak h0 = false := by
    have := (List.all_eq_true.mp hbf) h0 (by simp [hh0])
    simpa using this
  have hhead : (path ++ ['\n']).head? ≠ some '\n' := by
    rw [hh0]
    simp only [List.cons_append, List.head?_cons]
    intro hcon
    have : h0 = '\n' := by injection hcon
    rw [this] at hh0nb
    simp [isLineBreak_nl] at hh0nb
  rcases List.eq_nil_or_concat content with hc0 | ⟨s0, c, hc1⟩
  · subst hc0
    simp [cmdAddPad, blankPad, endsWithBreakNotCR, splitlines_nil, hterm]
  · have hc : content = s0 ++ [c] := by simpa [List.concat_eq_append] using hc1
    subst hc
    have hlnn : splitlines (s0 ++ [c]) ≠ [] := splitlines_ne_nil _ (by simp)
    have hlast : (s0 ++ [c]).getLast? = some c := List.getLast?_concat _
    by_cases hcb : isLineBreak c = true
    · by_cases hcr : c = '\r'
      · subst hcr
        have hbp : blankPad (s0 ++ ['\r']) = [] := by
          simp [blankPad, endsWithBreakNotCR, hlast]
        rw [hbp]
        by_cases hpad : (!(splitlines (s0 ++ ['\r'])).isEmpty &&
            !((splitlines (s0 ++ ['\r'])).getLast? == some [])) = true
        · rw [show cmdAddPad (s0 ++ ['\r']) = ['\n'] from by
            unfold cmdAddPad; rw [if_pos hpad]]
          rw [show (s0 ++ ['\r']) ++ ['\n'] ++ (path ++ ['\n']) =
              s0 ++ '\r' :: '\n' :: (path ++ ['\n']) from by simp]
          rw [splitlines_append_crlf _ s0, hterm]
          simp
        · rw [show cmdAddPad (s0 ++ ['\r']) = [] from by
            unfold cmdAddPad; rw [if_neg hpad]]
          rw [show (s0 ++ ['\r']) ++ [] ++ (path ++ ['\n']) =
              s0 ++ '\r' :: (path ++ ['\n']) from by simp]
          rw [splitlines_append_break isLineBreak_cr (fun _ => hhead) s0, hterm]
          simp
      · by_cases hpad : (!(splitlines (s0 ++ [c])).isEmpty &&
            !((splitlines (s0 ++ [c])).getLast? == some [])) = true
        · have hlastline : ((splitlines (s0 ++ [c])).getLast? == some []) = false := by
            rw [Bool.and_eq_true] at hpad
            simpa using hpad.2
          have hbp : blankPad (s0 ++ [c]) = [[]] := by
            simp [blankPad, endsWithBreakNotCR, hlast, hcb, hcr, hlastline]
          rw [show cmdAddPad (s0 ++ [c]) = ['\n'] from by
            unfold cmdAddPad; rw [if_pos hpad]]
          rw [show (s0 ++ [c]) ++ ['\n'] ++ (path ++ ['\n']) =
              s0 ++ c :: '\n' :: (path ++ ['\n']) from by simp]
          rw [splitlines_append_break hcb (fun h => absurd h hcr) s0]
          rw [splitlines_head_break isLineBreak_nl (fun h => absurd h (by decide)), hterm, hbp]
          simp
        · have hempty : (splitlines (s0 ++ [c])).isEmpty = false :=
            isEmpty_splitlines_concat s0 c
          have hlastline : ((splitlines (s0 ++ [c])).getLast? == some []) = true := by
            rw [Bool.and_eq_true] at hpad
            push_neg at hpad
            have := hpad (by simp [hempty])
            simpa using this
          have hbp : blankPad (s0 ++ [c]) = [] := by
            simp [blankPad, hlastline]
          rw [show cmdAddPad (s0 ++ [c]) = [] from by
            unfold cmdAddPad; rw [if_neg hpad]]
          rw [show (s0 ++ [c]) ++ [] ++ (path ++ ['\n']) =
              s0 ++ c :: (path ++ ['\n']) from by simp]
          rw [splitlines_append_break hcb (fun h => absurd h hcr) s0, hterm, hbp]
          simp
    · have hcb' : isLineBreak c = false := by
        cases h : isLineBreak c
        · rfl
        · exact absurd h hcb
      have hempty : (splitlines (s0 ++ [c])).isEmpty = false :=
        isEmpty_splitlines_concat s0 c
      have hlastline : ((splitlines (s0 ++ [c])).getLast? == some []) = false := by
        have := splitlines_getLast_nonbreak hcb' s0
        simpa using this
      have hpad : (!(splitlines (s0 ++ [c])).isEmpty &&
          !((splitlines (s0 ++ [c])).getLast? == some [])) = true := by
        simp [hempty, hlastline]
      have hbp : blankPad (s0 ++ [c]) = [] := by
        simp [blankPad, endsWithBreakNotCR, hlast, hcb']
      rw [show cmdAddPad (s0 ++ [c]) = ['\n'] from by
        unfold cmdAddPad; rw [if_pos hpad]]
      rw [show (s0 ++ [c]) ++ ['\n'] ++ (path ++ ['\n']) =
          (s0 ++ [c]) ++ '\n' :: (path ++ ['\n']) from by simp]
      rw [splitlines_append_break isLineBreak_nl (fun h => absurd h (by decide)) (s0 ++ [c])]
      have ht2 : splitlines ((s0 ++ [c]) ++ ['\n']) = splitlines (s0 ++ [c]) := by
        have := splitlines_term_nonbreak hcb' s0
        simpa [List.append_assoc] using this
      rw [ht2, hterm, hbp]
      simp

/-- Claim C7, counterexample: adding `p` to a list file reading `a\n` inserts
a blank line before the appended entry (the result is `a\n\np\n`), so the new
line sequence is not the old line sequence plus the appended path. -/
theorem C7_cex :
    (splitlines ("a\n").data).any (fun l => pyStrip l == ("p").data) = false ∧
      cmd_add ("a\n").data ("p").data = ("a\n\np\n").data ∧
      splitlines (cmd_add ("a\n").data ("p").data) ≠
        splitlines ("a\n").data ++ [("p").data] := by
  refine ⟨by decide, by decide, by decide⟩

/-- Claim C7, amended: when some trimmed line already equals the path,
`cmd_add` changes nothing; otherwise (for a nonempty, trimmed, line-break-free
path) it appends the path as the new final line, additionally inserting a
blank line exactly when the old content ends in a line break other than a
carriage return after a nonempty last line; afterwards the file ends with
exactly one newline, and adding the same path twice leaves exactly one line
whose trimmed content equals it. -/
theorem C7_add_spec (content path : Str) (hne : path ≠ [])
    (htrim : pyStrip path = path) (hbf : breakFree path = true) :
    ((splitlines content).any (fun l => pyStrip l == path) = true →
      cmd_add content path = content) ∧
    (linesStripEq content path = 0 →
      splitlines (cmd_add content path) =
          splitlines content ++ blankPad content ++ [path] ∧
        trailingNLs (cmd_add content path) = 1 ∧
        linesStripEq (cmd_add (cmd_add content path) path) path = 1) := by
  obtain ⟨p0, pc, hpc⟩ : ∃ p0 pc, path = p0 ++ [pc] := by
    rcases List.eq_nil_or_concat path with h | ⟨p0, pc, h⟩
    · exact absurd h hne
    · exact ⟨p0, pc, by simpa [List.concat_eq_append] using h⟩
  have hpcnb : isLineBreak pc = false := by
    have := (List.all_eq_true.mp hbf) pc (by simp [hpc])
    simpa using this
  have hpcn : pc ≠ '\n' := by
    intro h
    rw [h] at hpcnb
    simp [isLineBreak_nl] at hpcnb
  have noop : ∀ (s q : Str), (splitlines s).any (fun l => pyStrip l == q) = true →
      cmd_add s q = s := by
    intro s q h
    simp only [cmd_add]
    rw [if_pos h]
  constructor
  · intro hany
    exact noop content path hany
  · intro h0c
    have hfilter : (splitlines content).filter (fun l => pyStrip l == path) = [] :=
      List.length_eq_zero.mp h0c
    have hany : (splitlines content).any (fun l => pyStrip l == path) = false := by
      rw [List.any_eq_false]
      intro l hl
      have := List.filter_eq_nil_iff.mp hfilter l hl
      simpa using this
    have hmain : splitlines (cmd_add content path) =
        splitlines content ++ blankPad content ++ [path] := by
      rw [cmd_add_eq hany]
      exact splitlines_add_pad content path hne hbf
    refine ⟨hmain, ?_, ?_⟩
    · rw [cmd_add_eq hany, hpc]
      simpa [List.append_assoc] using
        trailingNLs_append_one (content ++ cmdAddPad content) p0 pc hpcn
    · have hany2 : (splitlines (cmd_add content path)).any
          (fun l => pyStrip l == path) = true := by
        rw [hmain]
        apply List.any_eq_true.mpr
        exact ⟨path, by simp, by simp [htrim]⟩
      have hnoop : cmd_add (cmd_add content path) path = cmd_add content path :=
        noop _ path hany2
      rw [hnoop]
      show ((splitlines (cmd_add content path)).filter
        (fun l => pyStrip l == path)).length = 1
      rw [hmain, List.filter_append, List.filter_append, hfilter]
      have hpathline : (List.filter (fun l => pyStrip l == path) [path]) = [path] := by
        simp [htrim]
      have hblank : (List.filter (fun l => pyStrip l == path) (blankPad content)) = [] := by
        unfold blankPad
        split
        · have : (pyStrip ([] : Str) == path) = false := by
            rcases path with _ | ⟨x, xs⟩
            · exact absurd rfl hne
            · rfl
          simp [this]
        · rfl
      rw [hpathline, hblank]
      simp

/-- Claim C7 witness: concrete instances of the amended behavior. -/
theorem C7_add_spec_witness :
    cmd_add ("a\nb\n").data ("b").data = ("a\nb\n").data ∧
      splitlines (cmd_add ("a\n").data ("p").data) =
        splitlines ("a\n").data ++ blankPad ("a\n").data ++ [("p").data] ∧
      trailingNLs (cmd_add ("a\n").data ("p").data) = 1 ∧
      linesStripEq (cmd_add (cmd_add ("a\n").data ("p").data) ("p").data) ("p").data = 1 := by
  refine ⟨(C7_add_spec (("a\nb\n").data) (("b").data) (by decide) (by decide) (by decide)).1
      (by decide), ?_, ?_, ?_⟩
  · exact ((C7_add_spec (("a\n").data) (("p").data) (by decide) (by decide) (by decide)).2
      (by decide)).1
  · exact ((C7_add_spec (("a\n").data) (("p").data) (by decide) (by decide) (by decide)).2
      (by decide)).2.1
  · exact ((C7_add_spec (("a\n").data) (("p").data) (by decide) (by decide) (by decide)).2
      (by decide)).2.2

/-- Claim C8 witness: a concrete removal retaining a comment line. -/
theorem C8_remove_spec_witness :
    splitlines (cmd_remove ("# c\n x \nb\n").data ("x").data) =
        [("# c").data, ("b").data] ∧
      trailingNLs (cmd_remove ("# c\n x \nb\n").data ("x").data) = 1 := by
  constructor
  · rw [(C8_remove_spec (("# c\n x \nb\n").data) (("x").data)).1]
    decide
  · exact (C8_remove_spec (("# c\n x \nb\n").data) (("x").data)).2.2.1 (("b").data)
      (by decide) (by decide)

/-! ## Token shape lemmas -/

theorem hexDigit_isLowerHex {n : Nat} (h : n < 16) : isLowerHex (hexDigit n) = true := by
  interval_cases n <;> decide

theorem wordHex_all_hex (x : Nat) : ∀ c ∈ wordHex x, isLowerHex c = true := by
  intro c hc
  simp only [wordHex, List.mem_cons, List.not_mem_nil, or_false] at hc
  rcases hc with rfl | rfl | rfl | rfl | rfl | rfl | rfl | rfl <;>
    exact hexDigit_isLowerHex (Nat.mod_lt _ (by norm_num))

theorem sha256hex_length (m : List Nat) : (sha256hex m).length = 64 := by
  simp [sha256hex, wordHex]

theorem sha256hex_all_hex (m : List Nat) : ∀ c ∈ sha256hex m, isLowerHex c = true := by
  intro c hc
  simp only [sha256hex, List.mem_append] at hc
  rcases hc with ((((((h | h) | h) | h) | h) | h) | h) | h <;> exact wordHex_all_hex _ c h

theorem isDigestB_sha256hex (m : List Nat) : isDigestB (sha256hex m) = true := by
  unfold isDigestB
  rw [Bool.and_eq_true]
  constructor
  · simp [sha256hex_length]
  · rw [List.all_eq_true]
    intro c hc
    exact sha256hex_all_hex m c hc

theorem isLowerHex_not_break {c : Char} (h : isLowerHex c = true) : isLineBreak c = false := by
  have hm : c ∈ ("0123456789abcdef").data := by
    simpa [isLowerHex] using h
  fin_cases hm <;> decide

theorem tokenShapeB_render (fs : FS) (p : Str) :
    tokenShapeB (renderToken (hashOutcome fs p)) = true := by
  unfold hashOutcome
  by_cases h1 : is_file fs p = true
  · rw [if_pos h1]
    rcases h2 : readBytes fs p with _ | bytes
    · decide
    · simp only [renderToken, tokenShapeB, sha256_of_file_eq, Bool.or_eq_true]
      exact Or.inr (isDigestB_sha256hex _)
  · rw [if_neg h1]
    decide

/-- A rendered token never contains a line-break character. -/
theorem renderToken_breakFree (fs : FS) (p : Str) :
    breakFree (renderToken (hashOutcome fs p)) = true := by
  unfold hashOutcome
  by_cases h1 : is_file fs p = true
  · rw [if_pos h1]
    rcases h2 : readBytes fs p with _ | bytes
    · decide
    · simp only [renderToken, sha256_of_file_eq, breakFree, List.all_eq_true]
      intro c hc
      simp [isLowerHex_not_break (sha256hex_all_hex _ c hc)]
  · rw [if_neg h1]
    decide

/-! ## Claim C6: store write format -/

theorem hash_specWrite_aux (fs : FS) : ∀ ps : List Str,
    ((ps.map (fun p => renderEntry p (hashOutcome fs p))).map (fun l => l ++ ['\n'])).flatten =
      specWrite (scanEntries fs ps) := by
  intro ps
  induction ps with
  | nil => rfl
  | cons r rs ih =>
    simp only [specWrite, scanEntries, List.map_cons, List.flatten_cons] at ih ⊢
    rw [ih]
    simp [renderEntry, List.append_assoc]

/-- Claim C6: the text written for an ordered sequence of scanned paths is
one newline-terminated line per entry of the form token, two spaces, path,
in scan order (not sorted); it ends with a newline iff the sequence is
nonempty, and every token is the literal word MISSING or ERROR or a
64-character lowercase hex digest. -/
theorem C6_write_format (fs : FS) (paths : List Str) :
    hash_files_from_list fs paths = specWrite (scanEntries fs paths) ∧
      ((hash_files_from_list fs paths).getLast? = some '\n' ↔ paths ≠ []) ∧
      paths.all (fun p => tokenShapeB (renderToken (hashOutcome fs p))) = true := by
  refine ⟨?_, ?_, ?_⟩
  · rcases paths with _ | ⟨q, qs⟩
    · rfl
    · show pyJoin ['\n'] ((q :: qs).map (fun p => renderEntry p (hashOutcome fs p))) ++
        (if ((q :: qs).map (fun p => renderEntry p (hashOutcome fs p))).isEmpty then []
          else ['\n']) = _
      rw [if_neg (by simp)]
      rw [pyJoin_nl _ (by simp)]
      exact hash_specWrite_aux fs (q :: qs)
  · rcases paths with _ | ⟨q, qs⟩
    · simp [hash_files_from_list, pyJoin]
    · constructor
      · intro _
        simp
      · intro _
        show (pyJoin ['\n'] ((q :: qs).map (fun p => renderEntry p (hashOutcome fs p))) ++
          (if ((q :: qs).map (fun p => renderEntry p (hashOutcome fs p))).isEmpty then []
            else ['\n'])).getLast? = some '\n'
        rw [if_neg (by simp), pyJoin_nl _ (by simp)]
        exact flatten_nl_getLast _ (by simp)
  · rw [List.all_eq_true]
    intro p _
    exact tokenShapeB_render fs p

/-! ## Claim C2: per-path outcomes -/

/-- Claim C2, counterexample: a path that resolves to a present but
unreadable regular file is recorded as Error, not Missing. -/
theorem C2_cex :
    crippledFS ("f").data = some ⟨true, false, []⟩ ∧
      hashOutcome crippledFS ("f").data = Outcome.error := by
  constructor
  · decide
  · decide

/-- Claim C2, amended: a path that does not resolve to a regular file is
recorded as Missing; a present regular file whose read fails (including one
unreadable from the start) is recorded as Error; a readable regular file is
recorded as the digest of its bytes; and every listed path receives exactly
one outcome line, so no per-file failure aborts the remaining paths. -/
theorem C2_hash_outcomes (fs : FS) (p : Str) :
    (is_file fs p = false → hashOutcome fs p = Outcome.missing) ∧
      (∀ fi : FileInfo, fs p = some fi → fi.regular = true → fi.readable = false →
        hashOutcome fs p = Outcome.error) ∧
      (∀ fi : FileInfo, fs p = some fi → fi.regular = true → fi.readable = true →
        hashOutcome fs p = Outcome.digest (sha256hex fi.content)) ∧
      (∀ paths : List Str, (∀ q ∈ paths, breakFree q = true) →
        (splitlines (hash_files_from_list fs paths)).length = paths.length) := by
  refine ⟨?_, ?_, ?_, ?_⟩
  · intro h
    simp [hashOutcome, h]
  · intro fi hfs hreg hread
    unfold hashOutcome is_file readBytes
    rw [hfs]
    simp [hreg, hread]
  · intro fi hfs hreg hread
    unfold hashOutcome is_file readBytes
    rw [hfs]
    simp [hreg, hread, sha256_of_file_eq]
  · intro paths hbf
    rcases hps : paths with _ | ⟨q, qs⟩
    · simp [hash_files_from_list, pyJoin, splitlines_nil]
    · have hlines : ∀ l ∈ (q :: qs).map (fun p => renderEntry p (hashOutcome fs p)),
          breakFree l = true := by
        intro l hl
        rw [List.mem_map] at hl
        obtain ⟨r, hr, rfl⟩ := hl
        have h1 := renderToken_breakFree fs r
        have h2 : breakFree r = true := hbf r (by rw [hps]; exact hr)
        simp only [renderEntry, breakFree, List.all_append, Bool.and_eq_true]
        exact ⟨⟨h1, by decide⟩, h2⟩
      show (splitlines (pyJoin ['\n'] ((q :: qs).map
          (fun p => renderEntry p (hashOutcome fs p))) ++
        (if ((q :: qs).map (fun p => renderEntry p (hashOutcome fs p))).isEmpty then []
          else ['\n']))).length = (q :: qs).length
      rw [if_neg (by simp), pyJoin_nl _ (by simp), splitlines_join _ hlines]
      simp

/-- Claim C2 witness: the three outcomes on a filesystem with a missing, an
unreadable, and a readable file. -/
theorem C2_hash_outcomes_witness :
    hashOutcome crippledFS ("g").data = Outcome.missing ∧
      hashOutcome crippledFS ("f").data = Outcome.error ∧
      hashOutcome helloFS ("A.txt").data = Outcome.digest (sha256hex helloBytes) ∧
      (splitlines (hash_files_from_list crippledFS [("f").data, ("g").data])).length = 2 := by
  refine ⟨(C2_hash_outcomes crippledFS (("g").data)).1 (by decide),
    (C2_hash_outcomes crippledFS (("f").data)).2.1 ⟨true, false, []⟩ (by decide) rfl rfl,
    (C2_hash_outcomes helloFS (("A.txt").data)).2.2.1 ⟨true, true, helloBytes⟩ (by decide)
      rfl rfl,
    (C2_hash_outcomes crippledFS (("f").data)).2.2.2 [("f").data, ("g").data] (by decide)⟩

/-! ## Claim C4: codec round trip -/

theorem dlookup_append (l1 l2 : Store) (q : Str) :
    dlookup (l1 ++ l2) q = optOr (dlookup l1 q) (dlookup l2 q) := by
  induction l1 with
  | nil => simp [dlookup, optOr]
  | cons e l1 ih =>
    rcases e with ⟨k, v⟩
    by_cases h : k = q
    · simp [dlookup, h, optOr]
    · simp [dlookup, h, ih]

theorem dlookup_dinsert (m : Store) (k v q : Str) :
    dlookup (dinsert m k v) q = if k = q then some v else dlookup m q := by
  induction m with
  | nil => simp [dinsert, dlookup]
  | cons e m ih =>
    rcases e with ⟨k', v'⟩
    by_cases h : k' = k
    · subst h
      by_cases h2 : k' = q <;> simp [dinsert, dlookup, h2]
    · by_cases h2 : k' = q
      · have hkq : ¬(k = q) := fun hc => h (h2.trans hc.symm)
        have hqk : ¬(q = k) := fun hc => hkq hc.symm
        simp [dinsert, dlookup, h, h2, hkq, hqk]
      · simp [dinsert, dlookup, h, h2, ih]

theorem parse_fold_lookup : ∀ (S : List (Str × Str)) (m : Store) (q : Str),
    dlookup (S.foldl (fun acc e => dinsert acc e.1 e.2) m) q =
      optOr (dlookup S.reverse q) (dlookup m q) := by
  intro S
  induction S with
  | nil => intro m q; simp [dlookup, optOr]
  | cons e S ih =>
    intro m q
    simp only [List.foldl_cons, List.reverse_cons]
    rw [ih, dlookup_dinsert, dlookup_append]
    cases hA : dlookup S.reverse q <;> by_cases he : e.1 = q <;>
      simp [optOr, dlookup, he]

theorem foldl_congr_mem {α β : Type} {l : List α} {f g : β → α → β}
    (h : ∀ b, ∀ a ∈ l, f b a = g b a) : ∀ b, l.foldl f b = l.foldl g b := by
  induction l with
  | nil => intro b; rfl
  | cons a l ih =>
    intro b
    simp only [List.foldl_cons]
    rw [h b a (by simp)]
    exact ih (fun b x hx => h b x (by simp [hx])) _

theorem takeWhile_append_all {α : Type} {p : α → Bool} :
    ∀ (a b : List α), (∀ x ∈ a, p x = true) →
      List.takeWhile p (a ++ b) = a ++ List.takeWhile p b := by
  intro a b
  induction a with
  | nil => intro _; simp
  | cons x a ih =>
    intro h
    simp only [List.cons_append, List.takeWhile_cons, h x (by simp), if_true]
    rw [ih (fun y hy => h y (by simp [hy]))]

theorem dropWhile_append_all {α : Type} {p : α → Bool} :
    ∀ (a b : List α), (∀ x ∈ a, p x = true) →
      List.dropWhile p (a ++ b) = List.dropWhile p b := by
  intro a b
  induction a with
  | nil => intro _; simp
  | cons x a ih =>
    intro h
    simp only [List.cons_append, List.dropWhile_cons, h x (by simp), if_true]
    exact ih (fun y hy => h y (by simp [hy]))

theorem rstripCRLF_concat (s : Str) (c : Char) (hc : (c = '\r' || c = '\n') = false) :
    rstripCRLF (s ++ [c]) = s ++ [c] := by
  unfold rstripCRLF
  rw [List.reverse_append]
  simp only [List.reverse_cons, List.reverse_nil, List.nil_append, List.singleton_append,
    List.dropWhile_cons, hc]
  simp

/-- Parsing one written line of the store: the first whitespace run splits
the line back into token and path. -/
theorem split1_written_line (tok p : Str) (htok : goodToken tok = true)
    (hp : goodPath p = true) :
    split1 (tok ++ ("  ").data ++ p) = [tok, p] := by
  obtain ⟨htne, htws⟩ : tok ≠ [] ∧ noWS tok = true := by
    unfold goodToken at htok
    rw [Bool.and_eq_true] at htok
    refine ⟨?_, htok.2⟩
    intro h
    rw [h] at htok
    simp at htok
  obtain ⟨hpne, hpws⟩ : p ≠ [] ∧ noWS p = true := by
    unfold goodPath at hp
    rw [Bool.and_eq_true, Bool.and_eq_true] at hp
    refine ⟨?_, hp.1.2⟩
    intro h
    rw [h] at hp
    simp at hp
  have htws2 : ∀ x ∈ tok, pySpace x = false := by
    intro x hx
    have := (List.all_eq_true.mp htws) x hx
    simpa using this
  have hpws2 : ∀ x ∈ p, pySpace x = false := by
    intro x hx
    have := (List.all_eq_true.mp hpws) x hx
    simpa using this
  obtain ⟨t0, tok2, rfl⟩ : ∃ t0 tok2, tok = t0 :: tok2 := by
    cases tok with
    | nil => exact absurd rfl htne
    | cons x xs => exact ⟨x, xs, rfl⟩
  obtain ⟨h0, p2, rfl⟩ : ∃ h0 p2, p = h0 :: p2 := by
    cases p with
    | nil => exact absurd rfl hpne
    | cons x xs => exact ⟨x, xs, rfl⟩
  have ht0 : pySpace t0 = false := htws2 t0 (by simp)
  have hh0 : pySpace h0 = false := hpws2 h0 (by simp)
  have hsp : pySpace ' ' = true := by decide
  have hline : (t0 :: tok2) ++ ("  ").data ++ (h0 :: p2) =
      t0 :: (tok2 ++ ' ' :: ' ' :: (h0 :: p2)) := by simp
  have hdrop : List.dropWhile pySpace (t0 :: (tok2 ++ ' ' :: ' ' :: (h0 :: p2))) =
      t0 :: (tok2 ++ ' ' :: ' ' :: (h0 :: p2)) := by
    rw [List.dropWhile_cons_of_neg]
    simp [ht0]
  have hsplit : t0 :: (tok2 ++ ' ' :: ' ' :: (h0 :: p2)) =
      (t0 :: tok2) ++ (' ' :: ' ' :: (h0 :: p2)) := by simp
  have htake : List.takeWhile (fun x => !pySpace x)
      (t0 :: (tok2 ++ ' ' :: ' ' :: (h0 :: p2))) = t0 :: tok2 := by
    rw [hsplit, takeWhile_append_all _ _ (fun x hx => by simp [htws2 x hx])]
    simp [List.takeWhile_cons, hsp]
  have hdrop2 : List.dropWhile pySpace (List.dropWhile (fun x => !pySpace x)
      (t0 :: (tok2 ++ ' ' :: ' ' :: (h0 :: p2)))) = h0 :: p2 := by
    rw [hsplit, dropWhile_append_all _ _ (fun x hx => by simp [htws2 x hx])]
    have e0 : List.dropWhile (fun x => !pySpace x) (' ' :: ' ' :: h0 :: p2) =
        ' ' :: ' ' :: h0 :: p2 :=
      List.dropWhile_cons_of_neg (by simp [hsp])
    have e1 : List.dropWhile pySpace (' ' :: ' ' :: h0 :: p2) =
        List.dropWhile pySpace (' ' :: h0 :: p2) :=
      List.dropWhile_cons_of_pos (by simp [hsp])
    have e2 : List.dropWhile pySpace (' ' :: h0 :: p2) =
        List.dropWhile pySpace (h0 :: p2) :=
      List.dropWhile_cons_of_pos (by simp [hsp])
    have e3 : List.dropWhile pySpace (h0 :: p2) = h0 :: p2 :=
      List.dropWhile_cons_of_neg (by simp [hh0])
    rw [e0, e1, e2, e3]
  unfold split1
  rw [hline]
  split
  next heq =>
    rw [hdrop] at heq
    simp at heq
  next c rest heq =>
    rw [hdrop] at heq
    injection heq with hc hrest
    subst hc
    subst hrest
    simp only [htake, hdrop2]
    rw [if_neg (by simp)]

theorem lstripSpaceStar_good {p : Str} (hp : goodPath p = true) : lstripSpaceStar p = p := by
  obtain ⟨h0, p', rfl⟩ : ∃ h0 p', p = h0 :: p' := by
    cases p with
    | nil => unfold goodPath at hp; simp at hp
    | cons x xs => exact ⟨x, xs, rfl⟩
  unfold goodPath noWS at hp
  rw [Bool.and_eq_true, Bool.and_eq_true] at hp
  have hws : pySpace h0 = false := by
    have := (List.all_eq_true.mp hp.1.2) h0 (by simp)
    simpa using this
  have hsp : h0 ≠ ' ' := by
    intro h
    rw [h] at hws
    simp [pySpace] at hws
  have hstar : h0 ≠ '*' := by
    intro h
    rw [h] at hp
    simp at hp
  unfold lstripSpaceStar
  rw [List.dropWhile_cons_of_neg]
  simp [hsp, hstar]

/-- A written line is line-break free. -/
theorem written_line_breakFree {tok p : Str} (htok : noWS tok = true) (hpws : noWS p = true) :
    breakFree (tok ++ ("  ").data ++ p) = true := by
  rw [breakFree, List.all_eq_true]
  intro c hc
  simp only [List.mem_append] at hc
  have hnb : ∀ x : Char, pySpace x = false → isLineBreak x = false := by
    intro x hx
    cases h : isLineBreak x
    · rfl
    · rw [lineBreak_pySpace h] at hx
      exact absurd hx (by simp)
  rcases hc with (hc | hc) | hc
  · have := (List.all_eq_true.mp htok) c hc
    simp [hnb c (by simpa using this)]
  · have hce : c = ' ' := by simpa using hc
    subst hce
    decide
  · have := (List.all_eq_true.mp hpws) c hc
    simp [hnb c (by simpa using this)]

theorem writeStore_lines_aux (fs : FS) : ∀ ps : List Str,
    ps.map (fun p => renderEntry p (hashOutcome fs p)) =
      (ps.map (fun p => (p, renderToken (hashOutcome fs p)))).map
        (fun e => e.2 ++ ("  ").data ++ e.1) := by
  intro ps
  induction ps with
  | nil => rfl
  | cons r rs ih =>
    simp only [List.map_cons, ih]
    rfl

/-- The code's writer is `writeStore` applied to the rendered entries. -/
theorem hash_files_eq_writeStore (fs : FS) (paths : List Str) :
    hash_files_from_list fs paths =
      writeStore (paths.map (fun p => (p, renderToken (hashOutcome fs p)))) := by
  rcases paths with _ | ⟨q, qs⟩
  · rfl
  · show pyJoin ['\n'] ((q :: qs).map (fun p => renderEntry p (hashOutcome fs p))) ++
      (if ((q :: qs).map (fun p => renderEntry p (hashOutcome fs p))).isEmpty then []
        else ['\n']) = _
    rw [writeStore_lines_aux fs (q :: qs)]
    unfold writeStore
    rw [if_neg (by simp), if_neg (by simp)]

theorem parse_write_store (S : Store)
    (hS : S.all (fun e => goodPath e.1 && goodToken e.2) = true) :
    parse_hash_file (writeStore S) =
      S.foldl (fun m e => dinsert m e.1 e.2) [] := by
  rcases hSc : S with _ | ⟨e0, S'⟩
  · rfl
  · rw [← hSc]
    have hSne : S ≠ [] := by rw [hSc]; simp
    have hgood : ∀ e ∈ S, goodPath e.1 = true ∧ goodToken e.2 = true := by
      intro e he
      have := (List.all_eq_true.mp hS) e he
      rwa [Bool.and_eq_true] at this
    have hlines : writeStore S =
        ((S.map (fun e => e.2 ++ ("  ").data ++ e.1)).map (fun l => l ++ ['\n'])).flatten := by
      unfold writeStore
      rw [if_neg (by simp [hSne])]
      exact pyJoin_nl _ (by simpa using hSne)
    have hbf : ∀ l ∈ S.map (fun e => e.2 ++ ("  ").data ++ e.1), breakFree l = true := by
      intro l hl
      rw [List.mem_map] at hl
      obtain ⟨e, he, rfl⟩ := hl
      obtain ⟨hp, ht⟩ := hgood e he
      unfold goodPath at hp
      unfold goodToken at ht
      rw [Bool.and_eq_true, Bool.and_eq_true] at hp
      rw [Bool.and_eq_true] at ht
      exact written_line_breakFree ht.2 hp.1.2
    unfold parse_hash_file
    rw [hlines, splitlines_join _ hbf, List.foldl_map]
    apply foldl_congr_mem
    intro m e he
    obtain ⟨hp, ht⟩ := hgood e he
    obtain ⟨p0, pc, hpc⟩ : ∃ p0 pc, e.1 = p0 ++ [pc] := by
      rcases List.eq_nil_or_concat e.1 with h | ⟨p0, pc, h⟩
      · rw [h] at hp
        unfold goodPath at hp
        simp at hp
      · exact ⟨p0, pc, by simpa [List.concat_eq_append] using h⟩
    have hpcws : pySpace pc = false := by
      unfold goodPath noWS at hp
      rw [Bool.and_eq_true, Bool.and_eq_true] at hp
      have := (List.all_eq_true.mp hp.1.2) pc (by simp [hpc])
      simpa using this
    have hrstrip : rstripCRLF (e.2 ++ ("  ").data ++ e.1) = e.2 ++ ("  ").data ++ e.1 := by
      rw [show e.2 ++ ("  ").data ++ e.1 = (e.2 ++ ("  ").data ++ p0) ++ [pc] from by
        simp [hpc, List.append_assoc]]
      apply rstripCRLF_concat
      by_cases h1 : pc = '\r'
      · rw [h1] at hpcws
        simp [pySpace] at hpcws
      · by_cases h2 : pc = '\n'
        · rw [h2] at hpcws
          simp [pySpace] at hpcws
        · simp [h1, h2]
    rw [hrstrip]
    rw [if_neg (by simp [show ("  ").data = [' ', ' '] from rfl])]
    rw [split1_written_line e.2 e.1 ht hp]
    show dinsert m (lstripSpaceStar e.1) e.2 = dinsert m e.1 e.2
    rw [lstripSpaceStar_good hp]

/-- Claim C4, counterexample: a whitespace-free path beginning with an
asterisk does not survive the round trip: the reader strips the asterisk. -/
theorem C4_cex :
    (∀ c ∈ ("*x").data, pySpace c = false) ∧
      dlookup (parse_hash_file (writeStore [(("*x").data, ("h").data)])) ("*x").data = none ∧
      dlookup (parse_hash_file (writeStore [(("*x").data, ("h").data)])) ("x").data =
        some ("h").data ∧
      dlookup ([(("*x").data, ("h").data)] : Store).reverse ("*x").data = some ("h").data := by
  refine ⟨by decide, by decide, by decide, by decide⟩

/-- Claim C4, amended: for every HashStore whose paths are nonempty, contain
no whitespace, and do not start with an asterisk (and whose tokens are
nonempty and whitespace-free, as digests and sentinels are), parsing the
written text yields exactly the store's path-to-token mapping, with the
later occurrence winning for duplicated paths. -/
theorem C4_roundtrip (S : Store)
    (hS : S.all (fun e => goodPath e.1 && goodToken e.2) = true) (q : Str) :
    dlookup (parse_hash_file (writeStore S)) q = dlookup S.reverse q := by
  rw [parse_write_store S hS, parse_fold_lookup]
  cases dlookup S.reverse q <;> simp [optOr, dlookup]

/-- Claim C4 witness: a concrete store with a duplicated path; the later
token wins. -/
theorem C4_roundtrip_witness :
    dlookup (parse_hash_file (writeStore
        [(("a").data, ("h1").data), (("b").data, ("MISSING").data),
         (("a").data, ("h2").data)])) ("a").data = some ("h2").data := by
  rw [C4_roundtrip _ (by decide) (("a").data)]
  decide

/-! ## Claims C1 and C10: the diff engine -/

theorem mem_insertLe {α : Type} (le : α → α → Bool) (a x : α) :
    ∀ l : List α, x ∈ insertLe le a l ↔ x = a ∨ x ∈ l := by
  intro l
  induction l with
  | nil => simp [insertLe]
  | cons b bs ih =>
    by_cases h : le a b = true
    · simp [insertLe, h]
    · simp only [insertLe, h, Bool.false_eq_true, if_false, List.mem_cons, ih]
      tauto

theorem mem_sortLe {α : Type} (le : α → α → Bool) (x : α) :
    ∀ l : List α, x ∈ sortLe le l ↔ x ∈ l := by
  intro l
  induction l with
  | nil => simp [sortLe]
  | cons a as ih =>
    simp [sortLe, mem_insertLe, ih]

theorem map_insertLe {α β : Type} (f : α → β) (le : β → β → Bool) (a : α) :
    ∀ l : List α,
      (insertLe (fun u v => le (f u) (f v)) a l).map f = insertLe le (f a) (l.map f) := by
  intro l
  induction l with
  | nil => simp [insertLe]
  | cons b bs ih =>
    by_cases h : le (f a) (f b) = true
    · simp [insertLe, h]
    · simp [insertLe, h, ih]

theorem map_sortLe {α β : Type} (f : α → β) (le : β → β → Bool) :
    ∀ l : List α, (sortLe (fun u v => le (f u) (f v)) l).map f = sortLe le (l.map f) := by
  intro l
  induction l with
  | nil => simp [sortLe]
  | cons a as ih =>
    simp only [sortLe, List.map_cons, map_insertLe, ih]

theorem mem_of_dlookup : ∀ (m : Store) (p v : Str), dlookup m p = some v → (p, v) ∈ m := by
  intro m
  induction m with
  | nil => intro p v h; simp [dlookup] at h
  | cons e m ih =>
    intro p v h
    rcases e with ⟨k, w⟩
    by_cases hk : k = p
    · rw [dlookup, if_pos hk] at h
      injection h with h2
      subst hk
      subst h2
      simp
    · rw [dlookup, if_neg hk] at h
      simp [ih p v h]

theorem dlookup_of_mem_nodup : ∀ (m : Store) (p v : Str), (dkeys m).Nodup → (p, v) ∈ m →
    dlookup m p = some v := by
  intro m
  induction m with
  | nil => intro p v _ h; simp at h
  | cons e m ih =>
    intro p v hnd hmem
    rcases e with ⟨k, w⟩
    simp only [dkeys, List.map_cons, List.nodup_cons] at hnd
    rcases List.mem_cons.mp hmem with h | h
    · rw [Prod.mk.injEq] at h
      rw [dlookup, if_pos h.1.symm, h.2]
    · have hk : k ≠ p := by
        intro hc
        apply hnd.1
        rw [hc]
        exact List.mem_map.mpr ⟨(p, v), h, rfl⟩
      rw [dlookup, if_neg hk]
      exact ih p v hnd.2 h

theorem filterMap_congr_mem2 {α β : Type} {l : List α} {f g : α → Option β}
    (h : ∀ a ∈ l, f a = g a) : l.filterMap f = l.filterMap g := by
  induction l with
  | nil => rfl
  | cons a l ih =>
    simp only [List.filterMap_cons, h a (by simp)]
    rw [ih (fun x hx => h x (by simp [hx]))]

/-- The first loop's classification agrees with the amended spec classifier
applied to the scan lookup. -/
theorem checkClassify_eq_amended (scan : Store) (p b : Str) :
    checkClassify scan p b = specClassifyAmended p b (dlookup scan p) := by
  unfold checkClassify specClassifyAmended
  cases dlookup scan p with
  | none => rfl
  | some s =>
    by_cases h1 : s = missingTok
    · simp [h1]
    · by_cases h2 : s = errorTok
      · simp [h1, h2]
      · by_cases h3 : b = s
        · simp [h1, h2, h3]
        · simp [h1, h2, h3]

/-- Claim C1, counterexample: a path whose baseline token is the sentinel
MISSING but whose scan token is a digest is logged as Modified by the code,
while the claim's classification (Modified only when both tokens are
digests) emits no finding for it. -/
theorem C1_cex :
    (dkeys c1Base).Nodup ∧
      diffFindings c1Base c1Scan = [Finding.modified ("p").data] ∧
      specDiffC1 c1Base c1Scan = [] := by
  refine ⟨by decide, by decide, by decide⟩

/-- Claim C1, amended: the diff visits every baseline path in ascending
sorted order, classifying it as MissingNotScanned when absent from the scan,
Missing when the scan token is MISSING, Error when the scan token is ERROR,
Modified when the scan token is neither sentinel and differs from the
baseline token, and no finding when the tokens are equal; then every path in
the scan but not the baseline, in ascending sorted order, is classified as
New; the emitted sequence is exactly phase one followed by phase two. -/
theorem C1_two_phase_diff (base scan : Store) (hb : (dkeys base).Nodup) :
    diffFindings base scan = specDiffAmended base scan := by
  unfold diffFindings specDiffAmended
  congr 1
  have h1 : sortStrs (dkeys base) = (sortPairs base).map Prod.fst := by
    unfold sortStrs sortPairs dkeys
    rw [map_sortLe]
  rw [h1, List.filterMap_map]
  apply filterMap_congr_mem2
  intro pb hmem
  have hmem2 : pb ∈ base := (mem_sortLe _ _ _).mp hmem
  have hlk : dlookup base pb.1 = some pb.2 := dlookup_of_mem_nodup base pb.1 pb.2 hb hmem2
  have hrhs : (fun p =>
      match dlookup base p with
      | some b => specClassifyAmended p b (dlookup scan p)
      | none => none) pb.1 = specClassifyAmended pb.1 pb.2 (dlookup scan pb.1) := by
    simp only [hlk]
  rw [checkClassify_eq_amended]
  exact hrhs.symm

/-- Claim C1 witness: the counterexample pair evaluated through the amended
statement. -/
theorem C1_two_phase_diff_witness :
    diffFindings c1Base c1Scan = specDiffAmended c1Base c1Scan ∧
      specDiffAmended c1Base c1Scan = [Finding.modified ("p").data] :=
  ⟨C1_two_phase_diff c1Base c1Scan (by decide), by decide⟩

/-- Claim C10: sentinel-equal tokens still produce findings (MISSING in both
stores still logs Missing, ERROR in both still logs Error), and an OK verdict
forces every baseline entry to be a digest matched exactly by the scan. -/
theorem C10_sentinel_not_ok (base scan : Store)
    (hwf : base.all (fun e => tokenShapeB e.2) = true) :
    (∀ p, dlookup base p = some missingTok → dlookup scan p = some missingTok →
      Finding.missing p ∈ diffFindings base scan) ∧
      (∀ p, dlookup base p = some errorTok → dlookup scan p = some errorTok →
        Finding.error p ∈ diffFindings base scan) ∧
      (checkOk base scan = true → ∀ p b, (p, b) ∈ base →
        isDigestB b = true ∧ dlookup scan p = some b) := by
  refine ⟨?_, ?_, ?_⟩
  · intro p hbp hsp
    have hmem : (p, missingTok) ∈ sortPairs base :=
      (mem_sortLe _ _ _).mpr (mem_of_dlookup base p missingTok hbp)
    apply List.mem_append_left
    apply List.mem_filterMap.mpr
    refine ⟨(p, missingTok), hmem, ?_⟩
    show checkClassify scan p missingTok = some (Finding.missing p)
    unfold checkClassify
    rw [hsp]
    rfl
  · intro p hbp hsp
    have hmem : (p, errorTok) ∈ sortPairs base :=
      (mem_sortLe _ _ _).mpr (mem_of_dlookup base p errorTok hbp)
    apply List.mem_append_left
    apply List.mem_filterMap.mpr
    refine ⟨(p, errorTok), hmem, ?_⟩
    show checkClassify scan p errorTok = some (Finding.error p)
    unfold checkClassify
    rw [hsp]
    rfl
  · intro hok p b hmem
    have hzero : checkChanges base scan = 0 := by
      unfold checkOk at hok
      simpa using hok
    have hnil : diffFindings base scan = [] := by
      unfold checkChanges at hzero
      exact List.length_eq_zero.mp hzero
    have hphase1 : (sortPairs base).filterMap
        (fun pb => checkClassify scan pb.1 pb.2) = [] := by
      unfold diffFindings at hnil
      exact (List.append_eq_nil.mp hnil).1
    have hcc : checkClassify scan p b = none := by
      rw [List.filterMap_eq_nil_iff] at hphase1
      exact hphase1 (p, b) ((mem_sortLe _ _ _).mpr hmem)
    unfold checkClassify at hcc
    rcases hs : dlookup scan p with _ | s
    · rw [hs] at hcc
      simp at hcc
    · rw [hs] at hcc
      have hcc2 : (if s = missingTok then some (Finding.missing p)
          else if s = errorTok then some (Finding.error p)
          else if b ≠ s then some (Finding.modified p) else none) = none := hcc
      by_cases h1 : s = missingTok
      · rw [if_pos h1] at hcc2
        simp at hcc2
      · rw [if_neg h1] at hcc2
        by_cases h2 : s = errorTok
        · rw [if_pos h2] at hcc2
          simp at hcc2
        · rw [if_neg h2] at hcc2
          by_cases h3 : b ≠ s
          · rw [if_pos h3] at hcc2
            simp at hcc2
          · push_neg at h3
            subst h3
            have hts : tokenShapeB b = true := (List.all_eq_true.mp hwf) (p, b) hmem
            unfold tokenShapeB at hts
            rw [Bool.or_eq_true, Bool.or_eq_true] at hts
            rcases hts with (ht | ht) | ht
            · exact absurd (by simpa using ht) h1
            · exact absurd (by simpa using ht) h2
            · exact ⟨ht, rfl⟩

/-- Claim C10 witness: sentinel-equal stores still alert, and an OK store
pairs digests exactly. -/
theorem C10_sentinel_not_ok_witness :
    Finding.missing ("m").data ∈ diffFindings c10Base c10Scan ∧
      Finding.error ("e").data ∈ diffFindings c10Base c10Scan ∧
      (isDigestB okTok = true ∧ dlookup c10Scan2 ("q").data = some okTok) := by
  refine ⟨(C10_sentinel_not_ok c10Base c10Scan (by decide)).1 (("m").data)
      (by decide) (by decide),
    (C10_sentinel_not_ok c10Base c10Scan (by decide)).2.1 (("e").data)
      (by decide) (by decide),
    (C10_sentinel_not_ok c10Base2 c10Scan2 (by decide)).2.2 (by decide)
      (("q").data) okTok (by decide)⟩

/-- Claim C3, amended: the Baseline write in `init` and the LastScan write in
`check` go through a temporary side file followed by one rename, and those
commands never write those targets directly; but `init` writes LastScan
directly with a copy of the new baseline content. -/
theorem C3_atomic_writes (fs : FS) (paths : List Str) :
    atomicReplaceVia (cmd_init_trace fs paths) baselineTmp BASELINE ∧
      directWrites (cmd_init_trace fs paths) BASELINE = false ∧
      atomicReplaceVia (cmd_check_trace fs paths) scanTmp LAST_SCAN ∧
      directWrites (cmd_check_trace fs paths) LAST_SCAN = false ∧
      directWrites (cmd_check_trace fs paths) BASELINE = false ∧
      FsOp.writeFile LAST_SCAN (hash_files_from_list fs paths) ∈ cmd_init_trace fs paths := by
  refine ⟨⟨1, 3, hash_files_from_list fs paths, by omega, rfl, rfl, by simp [cmd_init_trace]⟩,
    rfl, ⟨1, 3, hash_files_from_list fs paths, by omega, rfl, rfl, by simp [cmd_check_trace]⟩,
    rfl, rfl, ?_⟩
  simp [cmd_init_trace]

end Fic
